import Mathlib

/-!
Verification development for the ReadOrSkip chatbot (src/chatbot.py, src/app.py).

The Python source is shallowly embedded: strings are Lean `String`s processed
as `List Char`; the regex character classes `\w` and `\s` are modelled on the
ASCII fragment (`isWordChar`, `isSpaceChar`), consistent with `str.lower`
(`Char.toLower`).  The similarity scorer of `difflib.SequenceMatcher.ratio`
is an external library algorithm; it is treated as an abstract parameter
`ratio : String → String → ℚ` while the surrounding logic of
`difflib.get_close_matches(word, poss, n=1, cutoff)` (filter by cutoff, pick
the largest (score, string) pair) is embedded concretely.  Randomness
(`random.choice`) and the trained intent classifier are likewise external
inputs and appear as explicit arguments.  All functions are pure, matching
the purity of the Python originals up to the `print` debug logging, which has
no effect on returned values.
-/

namespace ReadOrSkip

/-- ASCII fragment of the Python regex class `\w` (letter, digit, underscore). -/
def isWordChar (c : Char) : Bool := c.isAlphanum || c == '_'

/-- ASCII fragment of the Python regex class `\s`. -/
def isSpaceChar (c : Char) : Bool :=
  c == ' ' || c == '\t' || c == '\n' || c == '\r' || c == '\x0b' || c == '\x0c'

/-- One character of `_strip_smart_quotes` (chatbot.py lines 42-48): fold
typographic quotes and dashes to ASCII. -/
def foldQuoteChar (c : Char) : Char :=
  if c == '’' || c == '‘' then '\x27'
  else if c == '“' || c == '”' then '"'
  else if c == '–' || c == '—' then '-'
  else c

/-- `str.lower()` on the character list. -/
def pyLower (l : List Char) : List Char := l.map Char.toLower

/-- `_strip_smart_quotes` on the character list. -/
def stripSmartQuotes (l : List Char) : List Char := l.map foldQuoteChar

/-- `re.sub(r"[^\w\s]", " ", s)`: every character that is neither a word
character nor whitespace becomes a single space. -/
def punctToSpace (l : List Char) : List Char :=
  l.map (fun c => if isWordChar c || isSpaceChar c then c else ' ')

/-- `re.sub(r"\s+", " ", s)`: each maximal whitespace run becomes one `' '`. -/
def squeezeWs : List Char → List Char
  | [] => []
  | [c] => [if isSpaceChar c then ' ' else c]
  | c :: d :: rest =>
    if isSpaceChar c && isSpaceChar d then squeezeWs (d :: rest)
    else (if isSpaceChar c then ' ' else c) :: squeezeWs (d :: rest)

/-- Remove trailing whitespace characters (the right half of `str.strip()`). -/
def dropTrailingWs : List Char → List Char
  | [] => []
  | c :: cs =>
    if (dropTrailingWs cs).isEmpty then (if isSpaceChar c then [] else [c])
    else c :: dropTrailingWs cs

/-- `re.sub(r"\s+", " ", s).strip()` (chatbot.py lines 56-57). -/
def wsCollapseTrim (l : List Char) : List Char :=
  dropTrailingWs ((squeezeWs l).dropWhile isSpaceChar)

/-- `s.lower()` followed by `_strip_smart_quotes(s)`: the shared prefix of
`normalize_text` (line 53) and `clean_query_from_helpers` (lines 74-75). -/
def preCleanList (s : String) : List Char := stripSmartQuotes (pyLower s.data)

/-- `normalize_text` (chatbot.py lines 50-58): lowercase, fold smart quotes,
replace punctuation by spaces, collapse whitespace, trim.  The `if not s`
guard is subsumed: the pipeline maps the empty string to the empty string. -/
def normalize_text (s : String) : String :=
  ⟨wsCollapseTrim (punctToSpace (preCleanList s))⟩

/-- One alternative of `re.sub(r"^(the|a|an)\s+", "", s)`: if `l` starts with
`art` followed by at least one whitespace character, drop the article and the
(greedy `\s+`) whitespace run. -/
def tryStripArticle (art : List Char) (l : List Char) : Option (List Char) :=
  if (l.take art.length == art) &&
     (match l.drop art.length with | c :: _ => isSpaceChar c | [] => false) then
    some ((l.drop art.length).dropWhile isSpaceChar)
  else none

/-- `re.sub(r"^(the|a|an)\s+", "", s)` (chatbot.py lines 63 and 116); the
alternatives are tried in the regex order `the`, `a`, `an`. -/
def stripLeadingArticle (l : List Char) : List Char :=
  match tryStripArticle "the".data l with
  | some r => r
  | none =>
    match tryStripArticle "a".data l with
    | some r => r
    | none =>
      match tryStripArticle "an".data l with
      | some r => r
      | none => l

/-- String wrapper for `stripLeadingArticle`. -/
def strip_article_str (s : String) : String := ⟨stripLeadingArticle s.data⟩

/-- `normalize_title` (chatbot.py lines 60-64). -/
def normalize_title (s : String) : String := strip_article_str (normalize_text s)

/-- Chained adjacency invariant: no two neighbouring whitespace characters. -/
def noAdjSpace : List Char → Bool
  | [] => true
  | [_] => true
  | c :: d :: rest => (!(isSpaceChar c && isSpaceChar d)) && noAdjSpace (d :: rest)

/-- The head, when present, is not whitespace. -/
def headNonSpace : List Char → Bool
  | [] => true
  | c :: _ => !isSpaceChar c

/-- The last element, when present, is not whitespace. -/
def lastNonSpace : List Char → Bool
  | [] => true
  | [c] => !isSpaceChar c
  | _ :: c :: rest => lastNonSpace (c :: rest)

/- == Word-boundary regex machinery: `\\b`-bounded literal patterns == -/

/-- Is the character at position `i` a word character (`false` past the ends)? -/
def wordAt (s : List Char) (i : Nat) : Bool :=
  match s[i]? with
  | some c => isWordChar c
  | none => false

/-- Python regex `\\b` holds at position `i` (between characters `i-1` and `i`)
iff exactly one of the two sides is a word character; the missing side at the
string edges counts as non-word. -/
def boundaryAt (s : List Char) (i : Nat) : Bool :=
  (if i = 0 then false else wordAt s (i - 1)) != wordAt s i

/-- The pattern `r"\\b" + re.escape(p) + r"\\b"` matches `s` at position `i`. -/
def matchWBAt (p s : List Char) (i : Nat) : Bool :=
  ((s.drop i).take p.length == p) && boundaryAt s i && boundaryAt s (i + p.length)

/-- `re.search(r"\\b" + re.escape(p) + r"\\b", s) is not None`. -/
def occursWB (p s : List Char) : Bool :=
  (List.range (s.length + 1)).any (fun i => matchWBAt p s i)

/-- Scanner for `re.sub(r"\\b" + re.escape(p) + r"\\b", "", s)`: walk the
original string left to right, deleting each leftmost non-overlapping match
(boundary tests refer to the original string, as in the `re` engine).  `fuel`
bounds the remaining steps; every step advances the index by at least one, so
`s.length + 1` fuel is always enough. -/
def subWBAux (p s : List Char) : Nat → Nat → List Char
  | 0, _ => []
  | fuel + 1, i =>
    if h : i < s.length then
      if 0 < p.length ∧ matchWBAt p s i = true then subWBAux p s fuel (i + p.length)
      else s.get ⟨i, h⟩ :: subWBAux p s fuel (i + 1)
    else []

/-- `re.sub(r"\\b" + re.escape(p) + r"\\b", "", s)`. -/
def subWB (p s : List Char) : List Char := subWBAux p s (s.length + 1) 0

/- == Catalog model and the book resolver (chatbot.py sections 2-4) == -/

/-- One entry of the `summaries.json` catalog.  `title` and `summary` are
always present (the index construction reads `b["title"]` unconditionally and
the random-pick reply reads `book["summary"]`); the remaining fields are read
with `dict.get` defaults and may be absent. -/
structure Book where
  title : String
  summary : String
  verdict : Option String
  author : Option String
  pages : Option String
  rating : Option String
deriving DecidableEq

/-- `BOOK_TITLE_INDEX = [(normalize_title(b["title"]), b) for b in books_data]`
(chatbot.py line 67), parameterized by the loaded catalog. -/
def BOOK_TITLE_INDEX (books : List Book) : List (String × Book) :=
  books.map (fun b => (normalize_title b.title, b))

/-- `titles_norm = [nt for nt, _ in BOOK_TITLE_INDEX]` (line 109). -/
def titlesNorm (books : List Book) : List String :=
  (BOOK_TITLE_INDEX books).map Prod.fst

/-- The `candidates` list of the containment tier (lines 91-97): every index
pair with non-empty normalized title occurring word-bounded in the message,
as `(len(nt), book)` pairs, in catalog order. -/
def containmentCandidates (books : List Book) (msgNorm : String) : List (Nat × Book) :=
  ((BOOK_TITLE_INDEX books).filter
      (fun p => !(p.1 == "") && occursWB p.1.data msgNorm.data)).map
    (fun p => (p.1.length, p.2))

/-- Stable insertion step for the descending sort on the first component. -/
def insertByLenDesc (x : Nat × Book) : List (Nat × Book) → List (Nat × Book)
  | [] => [x]
  | y :: ys => if y.1 ≤ x.1 then x :: y :: ys else y :: insertByLenDesc x ys

/-- `candidates.sort(key=lambda x: x[0], reverse=True)` (line 100): a stable
descending sort on the length component (Python list.sort is stable). -/
def sortByLenDesc : List (Nat × Book) → List (Nat × Book)
  | [] => []
  | x :: xs => insertByLenDesc x (sortByLenDesc xs)

/-- Tier 1 of `find_book_in_message` (lines 90-101): word-boundary containment,
returning `candidates[0][1]` after the stable descending sort when the
candidate list is non-empty. -/
def containmentTier (books : List Book) (msgNorm : String) : Option Book :=
  ((sortByLenDesc (containmentCandidates books msgNorm)).head?).map Prod.snd

/-- Tier 2 (lines 103-106): first index pair whose normalized title equals the
normalized message. -/
def exactTier (books : List Book) (msgNorm : String) : Option Book :=
  ((BOOK_TITLE_INDEX books).find? (fun p => msgNorm == p.1)).map Prod.snd

/-- The fuzzy cutoff 0.73 of lines 110 and 117, as the exact rational 73/100. -/
def FUZZY_CUTOFF : ℚ := ⟨73, 100, by norm_num, by norm_num⟩

/-- Code-point lexicographic comparison of character lists (Python `str <`). -/
def lexLtChars : List Char → List Char → Bool
  | [], [] => false
  | [], _ :: _ => true
  | _ :: _, [] => false
  | a :: as, b :: bs => if a < b then true else if b < a then false else lexLtChars as bs

/-- Python string comparison. -/
def pyStrLt (a b : String) : Bool := lexLtChars a.data b.data

/-- Python tuple comparison on `(score, string)` pairs. -/
def scoreLt (a b : ℚ × String) : Bool :=
  if a.1 < b.1 then true else if a.1 = b.1 then pyStrLt a.2 b.2 else false

/-- `heapq.nlargest(1, result)`: the leftmost maximal pair under the Python
tuple order (ties on equal tuples keep the earlier element). -/
def nlargest1 : List (ℚ × String) → Option (ℚ × String)
  | [] => none
  | x :: xs =>
    match nlargest1 xs with
    | none => some x
    | some y => if scoreLt x y then some y else some x

/-- `difflib.get_close_matches(word, poss, n=1, cutoff)` with the sequence
matcher similarity abstracted as `ratio`: keep the possibilities scoring at
least `cutoff` (the library chain real_quick_ratio ≥ quick_ratio ≥ ratio makes
its three successive filters equivalent to this single test), then return the
best surviving one, if any. -/
def get_close_matches1 (ratio : String → String → ℚ) (word : String)
    (poss : List String) (cutoff : ℚ) : List String :=
  match nlargest1 ((poss.filter (fun x => decide (cutoff ≤ ratio word x))).map
      (fun x => (ratio word x, x))) with
  | none => []
  | some p => [p.2]

/-- `idx = titles_norm.index(match[0]); BOOK_TITLE_INDEX[idx][1]` (lines
112-113 and 119-120): the book paired with the first index entry whose
normalized title equals `m`. -/
def fuzzyLookup (books : List Book) (m : String) : Option Book :=
  ((BOOK_TITLE_INDEX books).find? (fun p => p.1 == m)).map Prod.snd

/-- Tiers 3 and 4 share this shape (lines 108-120): run the close-match search
on the given query string and look the winning title up in the index. -/
def fuzzyTier (ratio : String → String → ℚ) (books : List Book) (q : String) :
    Option Book :=
  match get_close_matches1 ratio q (titlesNorm books) FUZZY_CUTOFF with
  | [] => none
  | m :: _ => fuzzyLookup books m

/-- `find_book_in_message` (chatbot.py lines 82-122): empty guards, then the
four tiers with first-success-wins early returns. -/
def find_book_in_message (ratio : String → String → ℚ) (books : List Book)
    (message : String) : Option Book :=
  if message = "" then none
  else if normalize_text message = "" then none
  else
    match containmentTier books (normalize_text message) with
    | some b => some b
    | none =>
      match exactTier books (normalize_text message) with
      | some b => some b
      | none =>
        match fuzzyTier ratio books (normalize_text message) with
        | some b => some b
        | none => fuzzyTier ratio books (strip_article_str (normalize_text message))

/-- Comparison definition for the refinement claim C10, following the spec
text with the article-stripped fuzzy retry removed: identical to
`find_book_in_message` up to and including the plain fuzzy tier, then `none`. -/
def find_book_in_message_noRetry (ratio : String → String → ℚ) (books : List Book)
    (message : String) : Option Book :=
  if message = "" then none
  else if normalize_text message = "" then none
  else
    match containmentTier books (normalize_text message) with
    | some b => some b
    | none =>
      match exactTier books (normalize_text message) with
      | some b => some b
      | none => fuzzyTier ratio books (normalize_text message)

/-- Does the string start with a leading article followed by whitespace
(the condition under which `re.sub(r"^(the|a|an)\\s+", "", s)` fires)? -/
def startsWithLeadingArticle (l : List Char) : Bool :=
  (tryStripArticle "the".data l).isSome || (tryStripArticle "a".data l).isSome ||
    (tryStripArticle "an".data l).isSome

/- == Helper-phrase stripping (chatbot.py lines 33-40, 72-80) == -/

/-- `HELPER_PHRASES` (chatbot.py lines 33-40), in source order. -/
def HELPER_PHRASES : List String :=
  ["tell me about", "summary of", "give me the summary of", "short summary of",
   "what is", "what\x27s", "whats", "can you summarize", "verdict on",
   "who is the author of", "author of", "who wrote", "writer of",
   "how many pages in", "total pages of", "length of", "page count of",
   "number of pages in", "how long is",
   "rating of", "goodreads rating of", "average rating of", "how is",
   "what is the rating of"]

/-- The `for p in HELPER_PHRASES` loop of lines 76-79: apply the word-bounded
deletion of each helper phrase in list order. -/
def stripAllHelpers (l : List Char) : List Char :=
  HELPER_PHRASES.foldl (fun m p => subWB p.data m) l

/-- `clean_query_from_helpers` (chatbot.py lines 72-80): lower-case, fold
smart quotes, delete each helper phrase at word boundaries in list order, then
collapse and trim whitespace.  No punctuation handling occurs here. -/
def clean_query_from_helpers (s : String) : String :=
  ⟨wsCollapseTrim (stripAllHelpers (preCleanList s))⟩

/-- `extract_book_from_input` (chatbot.py lines 125-128). -/
def extract_book_from_input (ratio : String → String → ℚ) (books : List Book)
    (user_input : String) : Option Book :=
  find_book_in_message ratio books (clean_query_from_helpers user_input)

/- == Response composition (chatbot.py lines 133-178) == -/

/-- The book-intent reply formatting of lines 163-178.  Fields read through
`dict.get` with a default are `Option` fields read through `Option.getD`. -/
def formatBookReply (intent : String) (b : Book) : String :=
  if intent = "summary" then
    "📖 " ++ b.title ++ " — " ++ b.summary
  else if intent = "verdict" then
    "✅ Verdict on " ++ b.title ++ ": " ++ b.verdict.getD "No verdict available"
  else if intent = "author" then
    "✍️ Author of " ++ b.title ++ " is " ++ b.author.getD "Unknown Author" ++ "."
  else if intent = "pages" then
    "📄 " ++ b.title ++ " has " ++ b.pages.getD "Unknown number of" ++ "."
  else if intent = "rating" then
    "⭐ Rating of " ++ b.title ++ ": " ++ b.rating.getD "No rating available"
  else "Sorry, I couldn’t find details for \x27" ++ b.title ++ "\x27."

/-- `get_bot_response` (chatbot.py lines 133-178).  External collaborators are
explicit arguments: `predictedIntent` is the classifier output for
`user_input`; `greetingResponses` is the `dropna` list of greeting responses
from the intents table and `greetingChoice` the `random.choice` pick from it;
`randomBook` is the `random.choice(books_data)` pick.  The state cell
`last_book["book"]` is threaded as `lastBook`; the function returns the reply
(`none` models the implicit Python `return None` fall-through) and the new
state. -/
def get_bot_response (ratio : String → String → ℚ) (books : List Book)
    (greetingResponses : List String) (greetingChoice : String) (randomBook : Book)
    (predictedIntent : String) (lastBook : Option Book) (user_input : String) :
    Option String × Option Book :=
  if predictedIntent = "greeting" then
    (some (if greetingResponses.isEmpty then "Hello! How can I help you today?"
           else greetingChoice), lastBook)
  else if predictedIntent = "random_book" then
    (some ("📖 Random pick: " ++ randomBook.title ++ " — " ++ randomBook.summary),
     some randomBook)
  else if predictedIntent ∈ (["summary", "verdict", "author", "pages", "rating"] : List String) then
    match extract_book_from_input ratio books user_input with
    | some b => (some (formatBookReply predictedIntent b), some b)
    | none =>
      match lastBook with
      | some b => (some (formatBookReply predictedIntent b), lastBook)
      | none => (some "Please mention the book title.", lastBook)
  else (none, lastBook)

/-- The conversation-memory invariant of claim C9: the cell is empty or holds
a catalog entry. -/
def stateInv (books : List Book) (st : Option Book) : Prop :=
  ∀ b, st = some b → b ∈ books

/- == Request boundary (app.py lines 12-26) == -/

/-- `get_bot_reply` (app.py): the body is the optional `"message"` field of
the posted JSON; computing the reply is an `Except`-valued collaborator, a
raised exception being `Except.error`.  The reply string is paired with the
HTTP status; `jsonify` marshaling is plumbing and not modelled. -/
def get_bot_reply (body : Option String) (compute : String → Except String String) :
    String × Nat :=
  match compute (body.getD "") with
  | Except.ok r => (r, 200)
  | Except.error _ => ("⚠️ Server error, check console.", 500)

/- == Concrete data used by the witnesses == -/

/-- An everywhere-zero similarity function (fuzzy tiers never fire). -/
def ratioZero : String → String → ℚ := fun _ _ => 0

def duneBook : Book := ⟨"Dune", "A desert planet epic.", none, none, none, none⟩

def itBook : Book := ⟨"It", "A clown terrorizes a town.", none, none, none, none⟩

def iewuBook : Book :=
  ⟨"It Ends with Us", "A romance novel.", none, none, none, none⟩

def bangBook : Book := ⟨"!!!", "A punctuation-only title.", none, none, none, none⟩

/-- The first element attaining the maximal first component (ties keep the
earlier element): the specification of `candidates[0]` after a stable
descending sort. -/
def firstMaxP : List (Nat × Book) → Option (Nat × Book)
  | [] => none
  | x :: xs =>
    match firstMaxP xs with
    | none => some x
    | some y => if x.1 < y.1 then some y else some x

/-- The maximal first component of a candidate list (`0` when empty). -/
def maxKeyLen (l : List (Nat × Book)) : Nat := (l.map Prod.fst).foldr max 0

/-- A collaborator that always raises, for the C8 witness. -/
def computeBoom : String → Except String String := fun _ => Except.error "boom"

/-- The exact rational 3/4, a convenient witness similarity score. -/
def ratThreeQuarters : ℚ := ⟨3, 4, by norm_num, by norm_num⟩

/-- A similarity function scoring 3/4 for the pair ("dun", "dune") and 0
otherwise, used by the C4 witness. -/
def ratioDun : String → String → ℚ :=
  fun a b => if a = "dun" ∧ b = "dune" then ratThreeQuarters else 0

/- == Theorems == -/

/- == Generic facts about the pipeline pieces, used for claim C6 == -/

theorem char_toNat_ofNat (n : Nat) (h : n < 55296) : (Char.ofNat n).toNat = n := by
  unfold Char.ofNat
  rw [dif_pos (Or.inl h)]
  rfl

theorem toLower_eq (c : Char) :
    c.toLower = if c.toNat ≥ 65 ∧ c.toNat ≤ 90 then Char.ofNat (c.toNat + 32) else c := rfl

theorem toLower_toLower (c : Char) : c.toLower.toLower = c.toLower := by
  by_cases h : c.toNat ≥ 65 ∧ c.toNat ≤ 90
  · have h1 : c.toLower = Char.ofNat (c.toNat + 32) := by rw [toLower_eq, if_pos h]
    have hv : c.toLower.toNat = c.toNat + 32 := by
      rw [h1]; exact char_toNat_ofNat _ (by omega)
    rw [toLower_eq c.toLower, if_neg (by rw [hv]; omega)]
  · have h1 : c.toLower = c := by rw [toLower_eq, if_neg h]
    rw [h1]; exact h1

theorem space_not_word (c : Char) (h : isSpaceChar c = true) : isWordChar c = false := by
  simp only [isSpaceChar, Bool.or_eq_true, beq_iff_eq] at h
  obtain ((((rfl | rfl) | rfl) | rfl) | rfl) | rfl := h <;> decide

theorem foldQuote_fix_of_word_or_space (c : Char)
    (h : isWordChar c = true ∨ c = ' ') : foldQuoteChar c = c := by
  rcases h with h | rfl
  · unfold foldQuoteChar
    by_cases h1 : (c == '’' || c == '‘') = true
    · exfalso
      rcases (Bool.or_eq_true _ _).mp h1 with h2 | h2 <;>
        (rw [eq_of_beq h2] at h; exact absurd h (by decide))
    rw [if_neg h1]
    by_cases h2 : (c == '“' || c == '”') = true
    · exfalso
      rcases (Bool.or_eq_true _ _).mp h2 with h3 | h3 <;>
        (rw [eq_of_beq h3] at h; exact absurd h (by decide))
    rw [if_neg h2]
    by_cases h3 : (c == '–' || c == '—') = true
    · exfalso
      rcases (Bool.or_eq_true _ _).mp h3 with h4 | h4 <;>
        (rw [eq_of_beq h4] at h; exact absurd h (by decide))
    rw [if_neg h3]
  · decide

theorem foldQuote_toLower_fix (u : Char) :
    (foldQuoteChar u.toLower).toLower = foldQuoteChar u.toLower := by
  unfold foldQuoteChar
  by_cases h1 : (u.toLower == '’' || u.toLower == '‘') = true
  · rw [if_pos h1]; decide
  rw [if_neg h1]
  by_cases h2 : (u.toLower == '“' || u.toLower == '”') = true
  · rw [if_pos h2]; decide
  rw [if_neg h2]
  by_cases h3 : (u.toLower == '–' || u.toLower == '—') = true
  · rw [if_pos h3]; decide
  rw [if_neg h3]
  exact toLower_toLower u

theorem map_id_of_mem {α : Type} (f : α → α) :
    ∀ (l : List α), (∀ c ∈ l, f c = c) → l.map f = l := by
  intro l
  induction l with
  | nil => intro _; rfl
  | cons c cs ih =>
    intro h
    simp only [List.map_cons, h c (List.mem_cons_self c cs),
      ih (fun x hx => h x (List.mem_cons_of_mem c hx))]

theorem noAdjSpace_tail (c : Char) (cs : List Char)
    (h : noAdjSpace (c :: cs) = true) : noAdjSpace cs = true := by
  cases cs with
  | nil => rfl
  | cons d rest =>
    rw [noAdjSpace, Bool.and_eq_true] at h
    exact h.2

theorem noAdjSpace_head (c d : Char) (cs : List Char)
    (h : noAdjSpace (c :: d :: cs) = true) : (isSpaceChar c && isSpaceChar d) = false := by
  rw [noAdjSpace, Bool.and_eq_true] at h
  have h1 := h.1
  cases hb : (isSpaceChar c && isSpaceChar d) with
  | false => rfl
  | true => rw [hb] at h1; exact absurd h1 (by decide)

theorem mem_squeezeWs (l : List Char) :
    ∀ c ∈ squeezeWs l, c = ' ' ∨ (c ∈ l ∧ isSpaceChar c = false) := by
  induction l using squeezeWs.induct with
  | case1 => intro c hc; simp [squeezeWs] at hc
  | case2 d =>
    intro c hc
    simp only [squeezeWs, List.mem_singleton] at hc
    by_cases hd : isSpaceChar d = true
    · left; rw [hc, if_pos hd]
    · right
      rw [if_neg hd] at hc
      subst hc
      exact ⟨List.mem_singleton_self _, by simpa using hd⟩
  | case3 a d rest hsp ih =>
    intro c hc
    rw [squeezeWs, if_pos hsp] at hc
    rcases ih c hc with h | ⟨hmem, hns⟩
    · exact Or.inl h
    · exact Or.inr ⟨List.mem_cons_of_mem a hmem, hns⟩
  | case4 a d rest hsp ih =>
    intro c hc
    rw [squeezeWs, if_neg hsp] at hc
    rcases List.mem_cons.mp hc with h | h
    · by_cases ha : isSpaceChar a = true
      · left; rw [h, if_pos ha]
      · right
        rw [if_neg ha] at h
        subst h
        exact ⟨List.mem_cons_self _ _, by simpa using ha⟩
    · rcases ih c h with h' | ⟨hmem, hns⟩
      · exact Or.inl h'
      · exact Or.inr ⟨List.mem_cons_of_mem a hmem, hns⟩

theorem squeezeWs_cons_of_nonspace (d : Char) (rest : List Char)
    (h : isSpaceChar d = false) : ∃ t, squeezeWs (d :: rest) = d :: t := by
  cases rest with
  | nil => exact ⟨[], by simp [squeezeWs, h]⟩
  | cons e r =>
    refine ⟨squeezeWs (e :: r), ?_⟩
    rw [squeezeWs, if_neg (by simp [h])]
    simp [h]

theorem squeezeWs_noAdj (l : List Char) : noAdjSpace (squeezeWs l) = true := by
  induction l using squeezeWs.induct with
  | case1 => rfl
  | case2 d => rfl
  | case3 a d rest hsp ih => rw [squeezeWs, if_pos hsp]; exact ih
  | case4 a d rest hsp ih =>
    rw [squeezeWs, if_neg hsp]
    by_cases ha : isSpaceChar a = true
    · have hd : isSpaceChar d = false := by
        rw [ha] at hsp
        simpa using hsp
      obtain ⟨t, ht⟩ := squeezeWs_cons_of_nonspace d rest hd
      rw [ht]
      rw [ht] at ih
      rw [noAdjSpace, Bool.and_eq_true]
      exact ⟨by simp [ha, hd], ih⟩
    · cases hsq : squeezeWs (d :: rest) with
      | nil => rfl
      | cons f t =>
        rw [hsq] at ih
        rw [noAdjSpace, Bool.and_eq_true]
        refine ⟨?_, ih⟩
        have ha' : isSpaceChar a = false := by simpa using ha
        simp [ha']

theorem squeezeWs_id (l : List Char) : noAdjSpace l = true →
    (∀ c ∈ l, isSpaceChar c = true → c = ' ') → squeezeWs l = l := by
  induction l using squeezeWs.induct with
  | case1 => intro _ _; rfl
  | case2 d =>
    intro _ hsp
    by_cases hd : isSpaceChar d = true
    · rw [squeezeWs, if_pos hd, hsp d (List.mem_singleton_self d) hd]
    · rw [squeezeWs, if_neg hd]
  | case3 a d rest hsp2 ih =>
    intro hadj _
    exfalso
    have h1 : (!(isSpaceChar a && isSpaceChar d)) = true :=
      (Bool.and_eq_true _ _ |>.mp hadj).1
    rw [hsp2] at h1
    exact Bool.false_ne_true (by simpa using h1)
  | case4 a d rest hsp2 ih =>
    intro hadj hsp
    rw [squeezeWs, if_neg hsp2]
    have ha : (if isSpaceChar a then ' ' else a) = a := by
      by_cases h : isSpaceChar a = true
      · rw [if_pos h, hsp a (List.mem_cons_self a _) h]
      · rw [if_neg h]
    rw [ha, ih (noAdjSpace_tail a _ hadj)
      (fun x hx h => hsp x (List.mem_cons_of_mem a hx) h)]

theorem dropWhile_headNonSpace (l : List Char) :
    headNonSpace (l.dropWhile isSpaceChar) = true := by
  induction l with
  | nil => rfl
  | cons c cs ih =>
    by_cases hc : isSpaceChar c = true
    · rw [List.dropWhile_cons_of_pos hc]; exact ih
    · rw [List.dropWhile_cons_of_neg hc]
      show (!isSpaceChar c) = true
      simpa using hc

theorem noAdj_dropWhile (l : List Char) : noAdjSpace l = true →
    noAdjSpace (l.dropWhile isSpaceChar) = true := by
  induction l with
  | nil => intro _; rfl
  | cons c cs ih =>
    intro h
    by_cases hc : isSpaceChar c = true
    · rw [List.dropWhile_cons_of_pos hc]; exact ih (noAdjSpace_tail c cs h)
    · rw [List.dropWhile_cons_of_neg hc]; exact h

theorem dropWhile_id_of_headNonSpace (l : List Char) (h : headNonSpace l = true) :
    l.dropWhile isSpaceChar = l := by
  cases l with
  | nil => rfl
  | cons c cs =>
    have hc : ¬ (isSpaceChar c = true) := by
      intro hh
      rw [headNonSpace, hh] at h
      exact Bool.false_ne_true (by simpa using h)
    rw [List.dropWhile_cons_of_neg hc]

theorem dropTrailing_shape (c : Char) (cs : List Char)
    (h : dropTrailingWs (c :: cs) ≠ []) :
    ∃ r, dropTrailingWs (c :: cs) = c :: r := by
  rw [dropTrailingWs] at h ⊢
  by_cases h0 : (dropTrailingWs cs).isEmpty = true
  · rw [if_pos h0] at h ⊢
    by_cases hc : isSpaceChar c = true
    · rw [if_pos hc] at h; exact absurd rfl h
    · rw [if_neg hc]; exact ⟨[], rfl⟩
  · rw [if_neg h0] at h ⊢
    exact ⟨dropTrailingWs cs, rfl⟩

theorem lastNonSpace_dropTrailing (l : List Char) :
    lastNonSpace (dropTrailingWs l) = true := by
  induction l with
  | nil => rfl
  | cons c cs ih =>
    rw [dropTrailingWs]
    by_cases h0 : (dropTrailingWs cs).isEmpty = true
    · rw [if_pos h0]
      by_cases hc : isSpaceChar c = true
      · rw [if_pos hc]; rfl
      · rw [if_neg hc]
        show (!isSpaceChar c) = true
        simpa using hc
    · rw [if_neg h0]
      cases hd : dropTrailingWs cs with
      | nil => rw [hd] at h0; exact absurd rfl h0
      | cons f t =>
        rw [hd] at ih
        rw [lastNonSpace]
        exact ih

theorem noAdj_dropTrailing (l : List Char) : noAdjSpace l = true →
    noAdjSpace (dropTrailingWs l) = true := by
  induction l with
  | nil => intro _; rfl
  | cons c cs ih =>
    intro h
    rw [dropTrailingWs]
    by_cases h0 : (dropTrailingWs cs).isEmpty = true
    · rw [if_pos h0]
      by_cases hc : isSpaceChar c = true
      · rw [if_pos hc]; rfl
      · rw [if_neg hc]; rfl
    · rw [if_neg h0]
      have hne : dropTrailingWs cs ≠ [] := by
        intro hh; rw [hh] at h0; exact h0 rfl
      cases cs with
      | nil => exact absurd rfl hne
      | cons d cs' =>
        obtain ⟨r, hr⟩ := dropTrailing_shape d cs' hne
        rw [hr]
        have ih' := ih (noAdjSpace_tail c _ h)
        rw [hr] at ih'
        rw [noAdjSpace, Bool.and_eq_true]
        constructor
        · have h2 := noAdjSpace_head c d cs' h
          rw [h2]; rfl
        · exact ih'

theorem headNonSpace_dropTrailing (l : List Char) (h : headNonSpace l = true) :
    headNonSpace (dropTrailingWs l) = true := by
  cases l with
  | nil => rfl
  | cons c cs =>
    by_cases hne : dropTrailingWs (c :: cs) = []
    · rw [hne]; rfl
    · obtain ⟨r, hr⟩ := dropTrailing_shape c cs hne
      rw [hr]
      exact h

theorem mem_dropTrailing (l : List Char) :
    ∀ c ∈ dropTrailingWs l, c ∈ l := by
  induction l with
  | nil => intro c hc; simpa [dropTrailingWs] using hc
  | cons d cs ih =>
    intro c hc
    rw [dropTrailingWs] at hc
    by_cases h0 : (dropTrailingWs cs).isEmpty = true
    · rw [if_pos h0] at hc
      by_cases hd : isSpaceChar d = true
      · rw [if_pos hd] at hc; exact absurd hc (List.not_mem_nil c)
      · rw [if_neg hd, List.mem_singleton] at hc
        exact hc ▸ List.mem_cons_self d cs
    · rw [if_neg h0] at hc
      rcases List.mem_cons.mp hc with h | h
      · exact h ▸ List.mem_cons_self d cs
      · exact List.mem_cons_of_mem d (ih c h)

theorem dropTrailing_id (l : List Char) : lastNonSpace l = true →
    dropTrailingWs l = l := by
  induction l with
  | nil => intro _; rfl
  | cons c cs ih =>
    intro h
    cases cs with
    | nil =>
      have hc : isSpaceChar c = false := by
        rw [lastNonSpace] at h
        simpa using h
      rw [dropTrailingWs]
      rw [if_pos (by rfl), if_neg (by simp [hc])]
    | cons d cs' =>
      have h' : lastNonSpace (d :: cs') = true := by
        rw [lastNonSpace] at h
        exact h
      have hd := ih h'
      rw [dropTrailingWs, hd]
      rw [if_neg (by simp)]

theorem wsCollapseTrim_id (l : List Char) (hadj : noAdjSpace l = true)
    (hh : headNonSpace l = true) (hl : lastNonSpace l = true)
    (hsp : ∀ c ∈ l, isSpaceChar c = true → c = ' ') : wsCollapseTrim l = l := by
  unfold wsCollapseTrim
  rw [squeezeWs_id l hadj hsp, dropWhile_id_of_headNonSpace l hh, dropTrailing_id l hl]

/-- Structural facts about the output of `normalize_text`: every character is
a lowercase-stable word character or a single space, no two spaces are
adjacent, and the ends are not spaces. -/
theorem normalize_text_spec (s : String) :
    (∀ c ∈ (normalize_text s).data, (isWordChar c = true ∧ c.toLower = c) ∨ c = ' ')
    ∧ noAdjSpace (normalize_text s).data = true
    ∧ headNonSpace (normalize_text s).data = true
    ∧ lastNonSpace (normalize_text s).data = true := by
  have hdata : (normalize_text s).data
      = dropTrailingWs ((squeezeWs (punctToSpace (preCleanList s))).dropWhile isSpaceChar) := rfl
  refine ⟨?_, ?_, ?_, ?_⟩
  · intro c hc
    rw [hdata] at hc
    have hc1 := mem_dropTrailing _ c hc
    have hc2 : c ∈ squeezeWs (punctToSpace (preCleanList s)) :=
      (List.dropWhile_sublist _).mem hc1
    rcases mem_squeezeWs _ c hc2 with h | ⟨hmem, hns⟩
    · exact Or.inr h
    · left
      rw [punctToSpace] at hmem
      obtain ⟨x, hx, hfx⟩ := List.mem_map.mp hmem
      by_cases hw : (isWordChar x || isSpaceChar x) = true
      · rw [if_pos hw] at hfx
        subst hfx
        rcases (Bool.or_eq_true _ _).mp hw with h | h
        · refine ⟨h, ?_⟩
          rw [preCleanList, stripSmartQuotes] at hx
          obtain ⟨v, hv, rfl⟩ := List.mem_map.mp hx
          rw [pyLower] at hv
          obtain ⟨u, hu, rfl⟩ := List.mem_map.mp hv
          exact foldQuote_toLower_fix u
        · rw [h] at hns
          exact absurd hns (by decide)
      · rw [if_neg hw] at hfx
        rw [← hfx] at hns
        exact absurd hns (by decide)
  · rw [hdata]
    exact noAdj_dropTrailing _ (noAdj_dropWhile _ (squeezeWs_noAdj _))
  · rw [hdata]
    exact headNonSpace_dropTrailing _ (dropWhile_headNonSpace _)
  · rw [hdata]
    exact lastNonSpace_dropTrailing _

theorem punctToSpace_id_of (l : List Char)
    (h : ∀ c ∈ l, isWordChar c = true ∨ c = ' ') : punctToSpace l = l :=
  map_id_of_mem _ l (fun c hc => by
    rcases h c hc with h1 | rfl
    · show (if isWordChar c || isSpaceChar c then c else ' ') = c
      simp [h1]
    · decide)

/-- Claim C6: `normalize_text` is idempotent: normalizing an already-normalized
string is a no-op.  The embedding is a pure Lean function, matching the
side-effect-free Python original. -/
theorem normalize_text_idem (s : String) :
    normalize_text (normalize_text s) = normalize_text s := by
  obtain ⟨hchars, hadj, hh, hl⟩ := normalize_text_spec s
  have hword : ∀ c ∈ (normalize_text s).data, isWordChar c = true ∨ c = ' ' := by
    intro c hc
    rcases hchars c hc with ⟨h1, _⟩ | rfl
    · exact Or.inl h1
    · exact Or.inr rfl
  have hlow : pyLower (normalize_text s).data = (normalize_text s).data :=
    map_id_of_mem _ _ (fun c hc => by
      rcases hchars c hc with ⟨_, h2⟩ | rfl
      · exact h2
      · decide)
  have hq : stripSmartQuotes (normalize_text s).data = (normalize_text s).data :=
    map_id_of_mem _ _ (fun c hc => foldQuote_fix_of_word_or_space c (hword c hc))
  have hp : punctToSpace (normalize_text s).data = (normalize_text s).data :=
    punctToSpace_id_of _ hword
  have hsp2 : ∀ c ∈ (normalize_text s).data, isSpaceChar c = true → c = ' ' := by
    intro c hc hs
    rcases hchars c hc with ⟨h1, _⟩ | rfl
    · rw [space_not_word c hs] at h1
      exact absurd h1 (by decide)
    · rfl
  have e1 : normalize_text (normalize_text s)
      = ⟨wsCollapseTrim (punctToSpace (stripSmartQuotes (pyLower (normalize_text s).data)))⟩ :=
    rfl
  rw [e1, hlow, hq, hp, wsCollapseTrim_id _ hadj hh hl hsp2]

/- == Helper lemmas about the index, candidates and the sort == -/

theorem mem_index (books : List Book) (p : String × Book)
    (hp : p ∈ BOOK_TITLE_INDEX books) :
    p.1 = normalize_title p.2.title ∧ p.2 ∈ books := by
  rw [BOOK_TITLE_INDEX] at hp
  obtain ⟨b, hb, rfl⟩ := List.mem_map.mp hp
  exact ⟨rfl, hb⟩

theorem index_mem_of_book (books : List Book) (b : Book) (hb : b ∈ books) :
    (normalize_title b.title, b) ∈ BOOK_TITLE_INDEX books := by
  rw [BOOK_TITLE_INDEX]
  exact List.mem_map.mpr ⟨b, hb, rfl⟩

theorem data_nil_iff (s : String) : s.data = [] ↔ s = "" := by
  constructor
  · intro h
    have e : String.mk s.data = s := rfl
    rw [← e, h]
  · intro h
    rw [h]

theorem mem_containmentCandidates (books : List Book) (msgNorm : String)
    (q : Nat × Book) :
    q ∈ containmentCandidates books msgNorm ↔
      q.2 ∈ books ∧ normalize_title q.2.title ≠ ""
        ∧ occursWB (normalize_title q.2.title).data msgNorm.data = true
        ∧ q.1 = (normalize_title q.2.title).length := by
  rw [containmentCandidates]
  constructor
  · intro hq
    obtain ⟨p, hp, hq'⟩ := List.mem_map.mp hq
    obtain ⟨hpmem, hfilt⟩ := List.mem_filter.mp hp
    obtain ⟨hfst, hbooks⟩ := mem_index books p hpmem
    rw [Bool.and_eq_true] at hfilt
    have hp1 : p.1 ≠ "" := by
      intro he
      rw [he] at hfilt
      exact absurd hfilt.1 (by decide)
    refine ⟨?_, ?_, ?_, ?_⟩
    · rw [← hq']; exact hbooks
    · rw [← hq', ← hfst]; exact hp1
    · rw [← hq', ← hfst]; exact hfilt.2
    · rw [← hq', ← hfst]
  · rintro ⟨hb, hne, hocc, hq1⟩
    apply List.mem_map.mpr
    refine ⟨(normalize_title q.2.title, q.2), ?_, ?_⟩
    · apply List.mem_filter.mpr
      refine ⟨index_mem_of_book books q.2 hb, ?_⟩
      rw [Bool.and_eq_true]
      constructor
      · cases hv : (normalize_title q.2.title == "") with
        | false => rfl
        | true => exact absurd (eq_of_beq hv) hne
      · exact hocc
    · cases q with
      | mk q1 q2 => simp only at hq1 ⊢; rw [hq1]

theorem mem_insertByLenDesc (x y : Nat × Book) (l : List (Nat × Book))
    (h : y ∈ insertByLenDesc x l) : y = x ∨ y ∈ l := by
  induction l with
  | nil => simpa [insertByLenDesc] using h
  | cons z zs ih =>
    rw [insertByLenDesc] at h
    by_cases hz : z.1 ≤ x.1
    · rw [if_pos hz] at h
      rcases List.mem_cons.mp h with h1 | h1
      · exact Or.inl h1
      · exact Or.inr h1
    · rw [if_neg hz] at h
      rcases List.mem_cons.mp h with h1 | h1
      · exact Or.inr (h1 ▸ List.mem_cons_self z zs)
      · rcases ih h1 with h2 | h2
        · exact Or.inl h2
        · exact Or.inr (List.mem_cons_of_mem z h2)

theorem mem_sortByLenDesc (l : List (Nat × Book)) (y : Nat × Book)
    (h : y ∈ sortByLenDesc l) : y ∈ l := by
  induction l with
  | nil => simpa [sortByLenDesc] using h
  | cons x xs ih =>
    rw [sortByLenDesc] at h
    rcases mem_insertByLenDesc x y _ h with h1 | h1
    · exact h1 ▸ List.mem_cons_self x xs
    · exact List.mem_cons_of_mem x (ih h1)

theorem firstMaxP_cons_isSome (z : Nat × Book) (zs : List (Nat × Book)) :
    (firstMaxP (z :: zs)).isSome = true := by
  rw [firstMaxP]
  cases hz : firstMaxP zs with
  | none => rfl
  | some w =>
    show (if z.1 < w.1 then some w else some z).isSome = true
    by_cases hw : z.1 < w.1
    · rw [if_pos hw]; rfl
    · rw [if_neg hw]; rfl

theorem firstMaxP_eq_none (xs : List (Nat × Book)) (hm : firstMaxP xs = none) :
    xs = [] := by
  cases xs with
  | nil => rfl
  | cons z zs =>
    have h := firstMaxP_cons_isSome z zs
    rw [hm] at h
    exact absurd h (by decide)

theorem sortByLenDesc_head (l : List (Nat × Book)) :
    (sortByLenDesc l).head? = firstMaxP l := by
  induction l with
  | nil => rfl
  | cons x xs ih =>
    rw [sortByLenDesc, firstMaxP]
    cases hs : sortByLenDesc xs with
    | nil =>
      rw [hs] at ih
      rw [← ih]
      rfl
    | cons y ys =>
      rw [hs] at ih
      rw [← ih]
      rw [insertByLenDesc]
      by_cases h : y.1 ≤ x.1
      · rw [if_pos h]
        show some x = if x.1 < y.1 then some y else some x
        rw [if_neg (by omega)]
      · rw [if_neg h]
        show some y = if x.1 < y.1 then some y else some x
        rw [if_pos (by omega)]

theorem firstMaxP_spec (l : List (Nat × Book)) :
    ∀ p, firstMaxP l = some p → p ∈ l ∧ ∀ q ∈ l, q.1 ≤ p.1 := by
  induction l with
  | nil => intro p hp; exact absurd hp (by simp [firstMaxP])
  | cons x xs ih =>
    intro p hp
    rw [firstMaxP] at hp
    cases hm : firstMaxP xs with
    | none =>
      rw [hm] at hp
      have hp2 : some x = some p := hp
      have hxs := firstMaxP_eq_none xs hm
      subst hxs
      have hpx : p = x := (Option.some_inj.mp hp2).symm
      subst hpx
      refine ⟨List.mem_singleton_self p, ?_⟩
      intro q hq
      rw [List.mem_singleton] at hq
      rw [hq]
    | some y =>
      rw [hm] at hp
      have hp2 : (if x.1 < y.1 then some y else some x) = some p := hp
      obtain ⟨hymem, hybound⟩ := ih y hm
      by_cases hxy : x.1 < y.1
      · rw [if_pos hxy] at hp2
        have hpy : p = y := (Option.some_inj.mp hp2).symm
        subst hpy
        refine ⟨List.mem_cons_of_mem x hymem, ?_⟩
        intro q hq
        rcases List.mem_cons.mp hq with h1 | h1
        · rw [h1]; omega
        · exact hybound q h1
      · rw [if_neg hxy] at hp2
        have hpx : p = x := (Option.some_inj.mp hp2).symm
        subst hpx
        refine ⟨List.mem_cons_self p xs, ?_⟩
        intro q hq
        rcases List.mem_cons.mp hq with h1 | h1
        · rw [h1]
        · have := hybound q h1
          omega

theorem maxKeyLen_cons (x : Nat × Book) (xs : List (Nat × Book)) :
    maxKeyLen (x :: xs) = max x.1 (maxKeyLen xs) := rfl

theorem firstMaxP_key (l : List (Nat × Book)) :
    ∀ p, firstMaxP l = some p → p.1 = maxKeyLen l := by
  induction l with
  | nil => intro p hp; exact absurd hp (by simp [firstMaxP])
  | cons x xs ih =>
    intro p hp
    rw [firstMaxP] at hp
    rw [maxKeyLen_cons]
    cases hm : firstMaxP xs with
    | none =>
      rw [hm] at hp
      have hp2 : some x = some p := hp
      have hx : p = x := (Option.some_inj.mp hp2).symm
      subst hx
      have hxs := firstMaxP_eq_none xs hm
      subst hxs
      show p.1 = max p.1 (maxKeyLen [])
      have : maxKeyLen ([] : List (Nat × Book)) = 0 := rfl
      omega
    | some y =>
      rw [hm] at hp
      have hp2 : (if x.1 < y.1 then some y else some x) = some p := hp
      have hy := ih y hm
      by_cases hxy : x.1 < y.1
      · rw [if_pos hxy] at hp2
        have : p = y := (Option.some_inj.mp hp2).symm
        subst this
        omega
      · rw [if_neg hxy] at hp2
        have : p = x := (Option.some_inj.mp hp2).symm
        subst this
        omega

theorem firstMaxP_eq_find (l : List (Nat × Book)) :
    l ≠ [] → firstMaxP l = l.find? (fun q => q.1 == maxKeyLen l) := by
  induction l with
  | nil => intro hne; exact absurd rfl hne
  | cons x xs ih =>
    intro _
    rw [firstMaxP]
    cases hm : firstMaxP xs with
    | none =>
      have hxs := firstMaxP_eq_none xs hm
      subst hxs
      rw [List.find?_cons]
      have hbeq : (x.1 == maxKeyLen [x]) = true := by
        rw [maxKeyLen_cons]
        have : maxKeyLen ([] : List (Nat × Book)) = 0 := rfl
        rw [this]
        simp only [beq_iff_eq]
        omega
      rw [hbeq]
    | some y =>
      have hy := firstMaxP_key xs y hm
      have hxsne : xs ≠ [] := by
        intro h
        rw [h] at hm
        exact absurd hm (by simp [firstMaxP])
      have ihx := ih hxsne
      rw [List.find?_cons]
      by_cases hxy : x.1 < y.1
      · have hkey : maxKeyLen (x :: xs) = maxKeyLen xs := by
          rw [maxKeyLen_cons]; omega
        have hbeq : (x.1 == maxKeyLen (x :: xs)) = false := by
          rw [hkey]
          simp only [beq_eq_false_iff_ne, ne_eq]
          omega
        rw [hbeq, hkey, ← ihx, hm]
        show (if x.1 < y.1 then some y else some x) = some y
        rw [if_pos hxy]
      · have hbeq : (x.1 == maxKeyLen (x :: xs)) = true := by
          rw [maxKeyLen_cons]
          rw [show maxKeyLen xs = y.1 from hy.symm]
          simp only [beq_iff_eq]
          omega
        rw [hbeq]
        show (if x.1 < y.1 then some y else some x) = some x
        rw [if_neg hxy]

theorem occursWB_nil (p : List Char) (h : occursWB p [] = true) : p = [] := by
  have h0 : matchWBAt p [] 0 = true := by
    simpa [occursWB] using h
  rw [matchWBAt] at h0
  have h1 := ((Bool.and_eq_true _ _).mp ((Bool.and_eq_true _ _).mp h0).1).1
  have h2 : (([] : List Char).drop 0).take p.length = [] := by simp
  rw [h2] at h1
  exact (eq_of_beq h1).symm

/-- Claim C1: the containment tier collects exactly the entries whose
non-empty normalized title occurs word-bounded in the normalized message, and
when the candidate list is non-empty the resolver returns the first candidate
(catalog order) whose normalized-title length is maximal: longest match wins,
catalog order breaks ties. -/
theorem C1_containment_longest (ratio : String → String → ℚ) (books : List Book)
    (message : String)
    (hne : containmentCandidates books (normalize_text message) ≠ []) :
    (∀ q : Nat × Book, q ∈ containmentCandidates books (normalize_text message) ↔
        q.2 ∈ books ∧ normalize_title q.2.title ≠ ""
          ∧ occursWB (normalize_title q.2.title).data (normalize_text message).data = true
          ∧ q.1 = (normalize_title q.2.title).length)
    ∧ ∃ p : Nat × Book,
        (containmentCandidates books (normalize_text message)).find?
            (fun q => q.1 == maxKeyLen (containmentCandidates books (normalize_text message)))
          = some p
        ∧ find_book_in_message ratio books message = some p.2 := by
  constructor
  · intro q; exact mem_containmentCandidates books _ q
  · cases hfm : firstMaxP (containmentCandidates books (normalize_text message)) with
    | none => exact absurd (firstMaxP_eq_none _ hfm) hne
    | some p =>
      refine ⟨p, ?_, ?_⟩
      · rw [← firstMaxP_eq_find _ hne]; exact hfm
      · obtain ⟨q0, hq0⟩ := List.exists_mem_of_ne_nil _ hne
        have hq0' := (mem_containmentCandidates books _ q0).mp hq0
        have hmsgN : normalize_text message ≠ "" := by
          intro h
          have hdata : (normalize_text message).data = [] := by rw [h]
          rw [hdata] at hq0'
          have hnil := occursWB_nil _ hq0'.2.2.1
          exact hq0'.2.1 ((data_nil_iff _).mp hnil)
        have hmsg : message ≠ "" := by
          intro h
          rw [h] at hmsgN
          exact hmsgN rfl
        rw [find_book_in_message, if_neg hmsg, if_neg hmsgN]
        have hct : containmentTier books (normalize_text message) = some p.2 := by
          rw [containmentTier, sortByLenDesc_head, hfm]
          rfl
        rw [hct]

/-- Witness for C1 at the catalog {"It", "It Ends with Us"} and the message
"it ends with us": both titles match word-bounded, and the longer one wins. -/
theorem C1_containment_longest_witness :
    containmentCandidates [itBook, iewuBook] (normalize_text "it ends with us") ≠ []
    ∧ find_book_in_message ratioZero [itBook, iewuBook] "it ends with us"
        = some iewuBook := by
  constructor
  · decide
  · obtain ⟨p, hfind, hbook⟩ :=
      (C1_containment_longest ratioZero [itBook, iewuBook] "it ends with us"
        (by decide)).2
    have h2 : (containmentCandidates [itBook, iewuBook]
          (normalize_text "it ends with us")).find?
        (fun q => q.1 == maxKeyLen (containmentCandidates [itBook, iewuBook]
          (normalize_text "it ends with us"))) = some ((15 : Nat), iewuBook) := by
      decide
    have hp : p = ((15 : Nat), iewuBook) := Option.some_inj.mp (hfind.symm.trans h2)
    rw [hbook, hp]

/-- Claim C7: the index keeps every catalog entry (even with an empty
normalized title), and neither the containment tier nor (for a non-empty
normalized message) the exact tier ever returns an entry whose normalized
title is empty. -/
theorem C7_empty_title_safety (books : List Book) (msgN : String) (b : Book) :
    (BOOK_TITLE_INDEX books).length = books.length
    ∧ (∀ bb ∈ books, (normalize_title bb.title, bb) ∈ BOOK_TITLE_INDEX books)
    ∧ (containmentTier books msgN = some b → normalize_title b.title ≠ "")
    ∧ (msgN ≠ "" → exactTier books msgN = some b → normalize_title b.title ≠ "") := by
  refine ⟨?_, ?_, ?_, ?_⟩
  · rw [BOOK_TITLE_INDEX, List.length_map]
  · intro bb hbb; exact index_mem_of_book books bb hbb
  · intro hct
    rw [containmentTier] at hct
    cases hh : (sortByLenDesc (containmentCandidates books msgN)).head? with
    | none => rw [hh] at hct; exact absurd hct (by simp)
    | some p =>
      rw [hh] at hct
      have hb : p.2 = b := by simpa using hct
      have hp : p ∈ containmentCandidates books msgN :=
        mem_sortByLenDesc _ p (List.mem_of_mem_head? (by simp [hh]))
      have hq := (mem_containmentCandidates books msgN p).mp hp
      rw [← hb]
      exact hq.2.1
  · intro hmsg hct
    rw [exactTier] at hct
    cases hf : (BOOK_TITLE_INDEX books).find? (fun p => msgN == p.1) with
    | none => rw [hf] at hct; exact absurd hct (by simp)
    | some p =>
      rw [hf] at hct
      have hb : p.2 = b := by simpa using hct
      have hpred := List.find?_some hf
      have hmem := List.mem_of_find?_eq_some hf
      have hfst := (mem_index books p hmem).1
      rw [← hb, ← hfst]
      intro h
      exact hmsg (by rw [eq_of_beq hpred, h])

/-- Witness for C7 at a catalog containing the punctuation-only title "!!!"
(empty normalized title) and "Dune", with the message "dune". -/
theorem C7_empty_title_safety_witness :
    containmentTier [bangBook, duneBook] "dune" = some duneBook
    ∧ (BOOK_TITLE_INDEX [bangBook, duneBook]).length
        = ([bangBook, duneBook] : List Book).length
    ∧ (∀ bb ∈ ([bangBook, duneBook] : List Book),
        (normalize_title bb.title, bb) ∈ BOOK_TITLE_INDEX [bangBook, duneBook])
    ∧ normalize_title duneBook.title ≠ "" := by
  refine ⟨by decide, (C7_empty_title_safety [bangBook, duneBook] "dune" duneBook).1,
    (C7_empty_title_safety [bangBook, duneBook] "dune" duneBook).2.1,
    (C7_empty_title_safety [bangBook, duneBook] "dune" duneBook).2.2.1 (by decide)⟩

theorem containmentTier_mem (books : List Book) (msgN : String) (b : Book)
    (h : containmentTier books msgN = some b) : b ∈ books := by
  rw [containmentTier] at h
  cases hh : (sortByLenDesc (containmentCandidates books msgN)).head? with
  | none => rw [hh] at h; exact absurd h (by simp)
  | some p =>
    rw [hh] at h
    have hb : p.2 = b := by simpa using h
    have hp := mem_sortByLenDesc (containmentCandidates books msgN) p
      (List.mem_of_mem_head? (by simp [hh]))
    exact hb ▸ ((mem_containmentCandidates books msgN p).mp hp).1

theorem exactTier_mem (books : List Book) (msgN : String) (b : Book)
    (h : exactTier books msgN = some b) : b ∈ books := by
  rw [exactTier] at h
  cases hf : (BOOK_TITLE_INDEX books).find? (fun p => msgN == p.1) with
  | none => rw [hf] at h; exact absurd h (by simp)
  | some p =>
    rw [hf] at h
    have hb : p.2 = b := by simpa using h
    exact hb ▸ (mem_index books p (List.mem_of_find?_eq_some hf)).2

theorem fuzzyLookup_mem (books : List Book) (m : String) (b : Book)
    (h : fuzzyLookup books m = some b) : b ∈ books := by
  rw [fuzzyLookup] at h
  cases hf : (BOOK_TITLE_INDEX books).find? (fun p => p.1 == m) with
  | none => rw [hf] at h; exact absurd h (by simp)
  | some p =>
    rw [hf] at h
    have hb : p.2 = b := by simpa using h
    exact hb ▸ (mem_index books p (List.mem_of_find?_eq_some hf)).2

theorem fuzzyTier_mem (ratio : String → String → ℚ) (books : List Book)
    (q : String) (b : Book) (h : fuzzyTier ratio books q = some b) : b ∈ books := by
  rw [fuzzyTier] at h
  cases hg : get_close_matches1 ratio q (titlesNorm books) FUZZY_CUTOFF with
  | nil => rw [hg] at h; exact absurd h (by simp)
  | cons m ms =>
    rw [hg] at h
    exact fuzzyLookup_mem books m b h

theorem find_book_mem (ratio : String → String → ℚ) (books : List Book)
    (message : String) (b : Book)
    (h : find_book_in_message ratio books message = some b) : b ∈ books := by
  rw [find_book_in_message] at h
  by_cases h1 : message = ""
  · rw [if_pos h1] at h; exact absurd h (by simp)
  rw [if_neg h1] at h
  by_cases h2 : normalize_text message = ""
  · rw [if_pos h2] at h; exact absurd h (by simp)
  rw [if_neg h2] at h
  cases hc : containmentTier books (normalize_text message) with
  | some b0 =>
    rw [hc] at h
    have h' : some b0 = some b := h
    exact (Option.some_inj.mp h') ▸ containmentTier_mem books _ b0 hc
  | none =>
    rw [hc] at h
    cases he : exactTier books (normalize_text message) with
    | some b0 =>
      rw [he] at h
      have h' : some b0 = some b := h
      exact (Option.some_inj.mp h') ▸ exactTier_mem books _ b0 he
    | none =>
      rw [he] at h
      cases hfz : fuzzyTier ratio books (normalize_text message) with
      | some b0 =>
        rw [hfz] at h
        have h' : some b0 = some b := h
        exact (Option.some_inj.mp h') ▸ fuzzyTier_mem ratio books _ b0 hfz
      | none =>
        rw [hfz] at h
        exact fuzzyTier_mem ratio books _ b h

theorem extract_book_mem (ratio : String → String → ℚ) (books : List Book)
    (user_input : String) (b : Book)
    (h : extract_book_from_input ratio books user_input = some b) : b ∈ books := by
  rw [extract_book_from_input] at h
  exact find_book_mem ratio books _ b h

/-- Claim C9: the conversation-memory cell starts empty and always holds
either nothing or an entry of the loaded catalog: `get_bot_response` preserves
the invariant, because the only writes store the `random.choice` pick (an
entry of `books_data`) or an `extract_book_from_input` result (an entry paired
in `BOOK_TITLE_INDEX`). -/
theorem C9_memory_invariant (ratio : String → String → ℚ) (books : List Book)
    (greetingResponses : List String) (greetingChoice : String) (randomBook : Book)
    (predictedIntent : String) (st : Option Book) (user_input : String)
    (hrand : randomBook ∈ books) (hst : stateInv books st) :
    stateInv books (none : Option Book)
    ∧ stateInv books (get_bot_response ratio books greetingResponses greetingChoice
        randomBook predictedIntent st user_input).2 := by
  constructor
  · intro b hb; exact absurd hb (by simp)
  · rw [get_bot_response.eq_def]
    by_cases h1 : predictedIntent = "greeting"
    · rw [if_pos h1]; exact hst
    rw [if_neg h1]
    by_cases h2 : predictedIntent = "random_book"
    · rw [if_pos h2]
      intro b hb
      have hb' : some randomBook = some b := hb
      exact (Option.some_inj.mp hb') ▸ hrand
    rw [if_neg h2]
    by_cases h3 : predictedIntent ∈ (["summary", "verdict", "author", "pages", "rating"] : List String)
    · rw [if_pos h3]
      cases hx : extract_book_from_input ratio books user_input with
      | some b0 =>
        intro b hb
        have hb' : some b0 = some b := hb
        exact (Option.some_inj.mp hb') ▸ extract_book_mem ratio books user_input b0 hx
      | none =>
        cases st with
        | none => intro b hb; exact absurd hb (by simp)
        | some b1 =>
          intro b hb
          have hb' : some b1 = some b := hb
          exact (Option.some_inj.mp hb') ▸ hst b1 rfl
    · rw [if_neg h3]; exact hst

/-- Witness for C9: a summary request against the one-book catalog
{"Dune"}, starting from the empty memory. -/
theorem C9_memory_invariant_witness :
    duneBook ∈ ([duneBook] : List Book)
    ∧ stateInv [duneBook]
        (get_bot_response ratioZero [duneBook] [] "" duneBook "summary" none "dune").2 :=
  ⟨by decide,
    (C9_memory_invariant ratioZero [duneBook] [] "" duneBook "summary" none "dune"
      (by decide) (fun _ hb => absurd hb (by simp))).2⟩

/-- Claim C3: for the book-requiring intents, a resolvable title in the
message overwrites the memory and is used; otherwise the existing memory is
used unchanged (never cleared); and when both are empty the handler answers
"Please mention the book title.". -/
theorem C3_memory_policy (ratio : String → String → ℚ) (books : List Book)
    (greetingResponses : List String) (greetingChoice : String) (randomBook : Book)
    (predictedIntent : String) (st : Option Book) (user_input : String)
    (hintent : predictedIntent ∈ (["summary", "verdict", "author", "pages", "rating"] : List String)) :
    (∀ b, extract_book_from_input ratio books user_input = some b →
        get_bot_response ratio books greetingResponses greetingChoice randomBook
            predictedIntent st user_input
          = (some (formatBookReply predictedIntent b), some b))
    ∧ (extract_book_from_input ratio books user_input = none →
        (get_bot_response ratio books greetingResponses greetingChoice randomBook
            predictedIntent st user_input).2 = st
        ∧ (∀ b, st = some b →
            get_bot_response ratio books greetingResponses greetingChoice randomBook
                predictedIntent st user_input
              = (some (formatBookReply predictedIntent b), st))
        ∧ (st = none →
            get_bot_response ratio books greetingResponses greetingChoice randomBook
                predictedIntent st user_input
              = (some "Please mention the book title.", st))) := by
  have h1 : predictedIntent ≠ "greeting" := by
    simp only [List.mem_cons, List.not_mem_nil, or_false] at hintent
    rcases hintent with rfl | rfl | rfl | rfl | rfl <;> decide
  have h2 : predictedIntent ≠ "random_book" := by
    simp only [List.mem_cons, List.not_mem_nil, or_false] at hintent
    rcases hintent with rfl | rfl | rfl | rfl | rfl <;> decide
  constructor
  · intro b hb
    rw [get_bot_response.eq_def, if_neg h1, if_neg h2, if_pos hintent, hb]
  · intro hb
    rw [get_bot_response.eq_def, if_neg h1, if_neg h2, if_pos hintent, hb]
    cases st with
    | none =>
      refine ⟨rfl, ?_, ?_⟩
      · intro b hbb; exact absurd hbb (by simp)
      · intro _; rfl
    | some b1 =>
      refine ⟨rfl, ?_, ?_⟩
      · intro b hbb
        have hb1 : b1 = b := Option.some_inj.mp hbb
        rw [← hb1]
      · intro hc; exact absurd hc (by simp)

/-- Witness for C3: "summary" intent, catalog {"Dune"}, message "dune"
resolves the book, overwrites the empty memory and formats the summary. -/
theorem C3_memory_policy_witness :
    ("summary" ∈ (["summary", "verdict", "author", "pages", "rating"] : List String))
    ∧ extract_book_from_input ratioZero [duneBook] "dune" = some duneBook
    ∧ get_bot_response ratioZero [duneBook] [] "" duneBook "summary" none "dune"
        = (some (formatBookReply "summary" duneBook), some duneBook) :=
  ⟨by decide, by decide,
    (C3_memory_policy ratioZero [duneBook] [] "" duneBook "summary" none "dune"
      (by decide)).1 duneBook (by decide)⟩

/-- Claim C2 (code bug): when the classifier output is outside the handled
set, the Python function has no else branch and falls through, implicitly
returning None; the embedding accordingly produces no reply string instead of
the deterministic fallback the spec requires. -/
theorem C2_unhandled_intent_returns_none :
    get_bot_response ratioZero [duneBook] [] "" duneBook "definition" none
        "what does dune mean" = (none, none) := by decide

/-- Claim C8: at the request boundary any exception from the reply
computation is caught and converted into the generic error reply with HTTP
status 500, and a successful computation is returned with 200; the embedding
is total, so no request crashes the process. -/
theorem C8_boundary_error_handling (body : Option String)
    (compute : String → Except String String) :
    (∀ e, compute (body.getD "") = Except.error e →
        get_bot_reply body compute = ("⚠️ Server error, check console.", 500))
    ∧ (∀ r, compute (body.getD "") = Except.ok r →
        get_bot_reply body compute = (r, 200)) := by
  constructor
  · intro e he; rw [get_bot_reply, he]
  · intro r hr; rw [get_bot_reply, hr]

/-- Witness for C8: a collaborator that raises produces the 500 error reply. -/
theorem C8_boundary_error_handling_witness :
    computeBoom ((some "hi" : Option String).getD "") = Except.error "boom"
    ∧ get_bot_reply (some "hi") computeBoom = ("⚠️ Server error, check console.", 500) :=
  ⟨rfl, (C8_boundary_error_handling (some "hi") computeBoom).1 "boom" rfl⟩

theorem nlargest1_cons_isSome (z : ℚ × String) (zs : List (ℚ × String)) :
    (nlargest1 (z :: zs)).isSome = true := by
  rw [nlargest1]
  cases hz : nlargest1 zs with
  | none => rfl
  | some w =>
    show (if scoreLt z w then some w else some z).isSome = true
    by_cases hw : scoreLt z w = true
    · rw [if_pos hw]; rfl
    · rw [if_neg hw]; rfl

theorem nlargest1_eq_none (l : List (ℚ × String)) (h : nlargest1 l = none) :
    l = [] := by
  cases l with
  | nil => rfl
  | cons z zs =>
    have hs := nlargest1_cons_isSome z zs
    rw [h] at hs
    exact absurd hs (by decide)

theorem nlargest1_spec (l : List (ℚ × String)) :
    ∀ p, nlargest1 l = some p → p ∈ l ∧ ∀ q ∈ l, q.1 ≤ p.1 := by
  induction l with
  | nil => intro p hp; exact absurd hp (by simp [nlargest1])
  | cons x xs ih =>
    intro p hp
    rw [nlargest1] at hp
    cases hm : nlargest1 xs with
    | none =>
      rw [hm] at hp
      have hp2 : some x = some p := hp
      have hxs := nlargest1_eq_none xs hm
      subst hxs
      have hxp : p = x := (Option.some_inj.mp hp2).symm
      subst hxp
      refine ⟨List.mem_singleton_self p, ?_⟩
      intro q hq
      rw [List.mem_singleton] at hq
      rw [hq]
    | some y =>
      rw [hm] at hp
      have hp2 : (if scoreLt x y then some y else some x) = some p := hp
      obtain ⟨hymem, hybound⟩ := ih y hm
      by_cases hxy : scoreLt x y = true
      · rw [if_pos hxy] at hp2
        have hpy : p = y := (Option.some_inj.mp hp2).symm
        subst hpy
        refine ⟨List.mem_cons_of_mem x hymem, ?_⟩
        intro q hq
        rcases List.mem_cons.mp hq with h1 | h1
        · rw [h1]
          rw [scoreLt] at hxy
          by_cases hlt : x.1 < p.1
          · exact le_of_lt hlt
          · rw [if_neg hlt] at hxy
            by_cases heq : x.1 = p.1
            · exact le_of_eq heq
            · rw [if_neg heq] at hxy
              exact absurd hxy (by decide)
        · exact hybound q h1
      · rw [if_neg hxy] at hp2
        have hpx : p = x := (Option.some_inj.mp hp2).symm
        subst hpx
        have hyx : y.1 ≤ p.1 := by
          rw [scoreLt] at hxy
          by_cases hlt : p.1 < y.1
          · rw [if_pos hlt] at hxy
            exact absurd hxy (by decide)
          · exact le_of_not_lt hlt
        refine ⟨List.mem_cons_self p xs, ?_⟩
        intro q hq
        rcases List.mem_cons.mp hq with h1 | h1
        · rw [h1]
        · exact le_trans (hybound q h1) hyx

theorem mem_closeResult (ratio : String → String → ℚ) (word : String)
    (poss : List String) (cutoff : ℚ) (q : ℚ × String)
    (hq : q ∈ (poss.filter (fun x => decide (cutoff ≤ ratio word x))).map
        (fun x => (ratio word x, x))) :
    q.2 ∈ poss ∧ cutoff ≤ ratio word q.2 ∧ q.1 = ratio word q.2 := by
  obtain ⟨x, hx, hxq⟩ := List.mem_map.mp hq
  obtain ⟨hxmem, hxfilt⟩ := List.mem_filter.mp hx
  have h2 : cutoff ≤ ratio word x := of_decide_eq_true hxfilt
  rw [← hxq]
  exact ⟨hxmem, h2, rfl⟩

theorem closeResult_mem (ratio : String → String → ℚ) (word : String)
    (poss : List String) (cutoff : ℚ) (t : String) (ht : t ∈ poss)
    (htc : cutoff ≤ ratio word t) :
    (ratio word t, t) ∈ (poss.filter (fun x => decide (cutoff ≤ ratio word x))).map
        (fun x => (ratio word x, x)) := by
  apply List.mem_map.mpr
  exact ⟨t, List.mem_filter.mpr ⟨ht, decide_eq_true htc⟩, rfl⟩

theorem get_close_matches1_sound (ratio : String → String → ℚ) (word : String)
    (poss : List String) (cutoff : ℚ) :
    ∀ m ∈ get_close_matches1 ratio word poss cutoff,
      m ∈ poss ∧ cutoff ≤ ratio word m
        ∧ ∀ t ∈ poss, cutoff ≤ ratio word t → ratio word t ≤ ratio word m := by
  intro m hm
  rw [get_close_matches1] at hm
  cases hn : nlargest1 ((poss.filter (fun x => decide (cutoff ≤ ratio word x))).map
      (fun x => (ratio word x, x))) with
  | none => rw [hn] at hm; exact absurd hm (by simp)
  | some p =>
    rw [hn] at hm
    have hmp : m = p.2 := by simpa using hm
    obtain ⟨hpmem, hbound⟩ := nlargest1_spec _ p hn
    obtain ⟨hposs, hcut, hsc⟩ := mem_closeResult ratio word poss cutoff p hpmem
    subst hmp
    refine ⟨hposs, hcut, ?_⟩
    intro t htposs htcut
    have := hbound (ratio word t, t) (closeResult_mem ratio word poss cutoff t htposs htcut)
    rw [hsc] at this
    exact this

theorem fuzzyTier_sound (ratio : String → String → ℚ) (books : List Book)
    (q : String) (b : Book) (h : fuzzyTier ratio books q = some b) :
    ∃ m, m ∈ titlesNorm books ∧ FUZZY_CUTOFF ≤ ratio q m
      ∧ (∀ t ∈ titlesNorm books, FUZZY_CUTOFF ≤ ratio q t → ratio q t ≤ ratio q m)
      ∧ fuzzyLookup books m = some b := by
  rw [fuzzyTier] at h
  cases hg : get_close_matches1 ratio q (titlesNorm books) FUZZY_CUTOFF with
  | nil => rw [hg] at h; exact absurd h (by simp)
  | cons m ms =>
    rw [hg] at h
    have hm : m ∈ get_close_matches1 ratio q (titlesNorm books) FUZZY_CUTOFF := by
      rw [hg]; exact List.mem_cons_self m ms
    obtain ⟨h1, h2, h3⟩ := get_close_matches1_sound ratio q (titlesNorm books) FUZZY_CUTOFF m hm
    exact ⟨m, h1, h2, h3, h⟩

/-- Claim C4: once the containment and exact tiers fail, the resolver is
exactly the plain fuzzy search followed, on failure, by the same search on
the article-stripped message with the same cutoff and the same title set;
and any result returned by a fuzzy search is a title scoring at least 73/100
that is best among all titles reaching the cutoff — below-cutoff candidates
are never returned. -/
theorem C4_fuzzy_tiers (ratio : String → String → ℚ) (books : List Book)
    (message q : String) (b : Book)
    (hmsg : message ≠ "") (hnorm : normalize_text message ≠ "")
    (hc : containmentTier books (normalize_text message) = none)
    (he : exactTier books (normalize_text message) = none)
    (hq : fuzzyTier ratio books q = some b) :
    find_book_in_message ratio books message
      = (match fuzzyTier ratio books (normalize_text message) with
         | some b0 => some b0
         | none => fuzzyTier ratio books (strip_article_str (normalize_text message)))
    ∧ ∃ m, m ∈ titlesNorm books ∧ FUZZY_CUTOFF ≤ ratio q m
        ∧ (∀ t ∈ titlesNorm books, FUZZY_CUTOFF ≤ ratio q t → ratio q t ≤ ratio q m)
        ∧ fuzzyLookup books m = some b := by
  constructor
  · rw [find_book_in_message, if_neg hmsg, if_neg hnorm, hc, he]
  · exact fuzzyTier_sound ratio books q b hq

/-- Witness for C4: catalog {"Dune"}, message "dun"; under a similarity that
scores ("dun", "dune") at 3/4 ≥ 73/100 the first fuzzy tier resolves the book
after the containment and exact tiers fail. -/
theorem C4_fuzzy_tiers_witness :
    containmentTier [duneBook] (normalize_text "dun") = none
    ∧ exactTier [duneBook] (normalize_text "dun") = none
    ∧ fuzzyTier ratioDun [duneBook] "dun" = some duneBook
    ∧ (find_book_in_message ratioDun [duneBook] "dun"
        = (match fuzzyTier ratioDun [duneBook] (normalize_text "dun") with
           | some b0 => some b0
           | none => fuzzyTier ratioDun [duneBook] (strip_article_str (normalize_text "dun")))
       ∧ ∃ m, m ∈ titlesNorm [duneBook] ∧ FUZZY_CUTOFF ≤ ratioDun "dun" m
           ∧ (∀ t ∈ titlesNorm [duneBook],
                FUZZY_CUTOFF ≤ ratioDun "dun" t → ratioDun "dun" t ≤ ratioDun "dun" m)
           ∧ fuzzyLookup [duneBook] m = some duneBook) := by
  refine ⟨by decide, by decide, by decide, ?_⟩
  exact C4_fuzzy_tiers ratioDun [duneBook] "dun" "dun" duneBook
    (by decide) (by decide) (by decide) (by decide) (by decide)

theorem stripLeadingArticle_id (l : List Char)
    (h : startsWithLeadingArticle l = false) : stripLeadingArticle l = l := by
  rw [startsWithLeadingArticle] at h
  rw [stripLeadingArticle]
  cases hthe : tryStripArticle "the".data l with
  | some r => rw [hthe] at h; simp at h
  | none =>
    cases ha : tryStripArticle "a".data l with
    | some r => rw [ha] at h; simp at h
    | none =>
      cases han : tryStripArticle "an".data l with
      | some r => rw [han] at h; simp at h
      | none => rfl

/-- Claim C10: when the normalized message does not start with a leading
article followed by whitespace, the article-stripping is the identity, the
fourth tier queries with exactly the same string as the third, and the
resolver equals its variant without the retry tier; the extra tier can thus
only matter for messages whose normalized form starts with an article. -/
theorem C10_article_tier_refinement (ratio : String → String → ℚ)
    (books : List Book) (message : String)
    (h : startsWithLeadingArticle (normalize_text message).data = false) :
    strip_article_str (normalize_text message) = normalize_text message
    ∧ find_book_in_message ratio books message
        = find_book_in_message_noRetry ratio books message := by
  have hs : strip_article_str (normalize_text message) = normalize_text message := by
    rw [strip_article_str, stripLeadingArticle_id _ h]
  refine ⟨hs, ?_⟩
  rw [find_book_in_message, find_book_in_message_noRetry, hs]
  by_cases h1 : message = ""
  · rw [if_pos h1, if_pos h1]
  rw [if_neg h1, if_neg h1]
  by_cases h2 : normalize_text message = ""
  · rw [if_pos h2, if_pos h2]
  rw [if_neg h2, if_neg h2]
  cases hc : containmentTier books (normalize_text message) with
  | some b => rfl
  | none =>
    cases he : exactTier books (normalize_text message) with
    | some b => rfl
    | none =>
      cases hf : fuzzyTier ratio books (normalize_text message) with
      | some b => rfl
      | none => rfl

/-- Witness for C10: "dune" does not start with an article, and the resolver
with and without the retry tier agree on it. -/
theorem C10_article_tier_refinement_witness :
    startsWithLeadingArticle (normalize_text "dune").data = false
    ∧ find_book_in_message ratioZero [duneBook] "dune"
        = find_book_in_message_noRetry ratioZero [duneBook] "dune" :=
  ⟨by decide, (C10_article_tier_refinement ratioZero [duneBook] "dune" (by decide)).2⟩

theorem wordAt_ge (s : List Char) (i : Nat) (h : s.length ≤ i) :
    wordAt s i = false := by
  rw [wordAt, List.getElem?_eq_none h]

theorem matchWBAt_false_of_gt (p s : List Char) (j : Nat) (h : s.length < j) :
    matchWBAt p s j = false := by
  rw [matchWBAt]
  have hb : boundaryAt s j = false := by
    rw [boundaryAt]
    rw [if_neg (by omega : ¬ j = 0)]
    rw [wordAt_ge s (j - 1) (by omega), wordAt_ge s j (by omega)]
    rfl
  rw [hb]
  simp

theorem occursWB_false_all (p s : List Char) (h : occursWB p s = false) :
    ∀ j, matchWBAt p s j = false := by
  intro j
  by_cases hle : j < s.length + 1
  · rw [occursWB] at h
    have := List.any_eq_false.mp h j (List.mem_range.mpr hle)
    simpa using this
  · exact matchWBAt_false_of_gt p s j (by omega)

theorem subWBAux_noMatchFrom (p s : List Char) :
    ∀ fuel k, s.length - k < fuel →
      (∀ j, k ≤ j → ¬(0 < p.length ∧ matchWBAt p s j = true)) →
      subWBAux p s fuel k = s.drop k := by
  intro fuel
  induction fuel with
  | zero => intro k hk _; exact absurd hk (Nat.not_lt_zero _)
  | succ fuel ih =>
    intro k hk hno
    rw [subWBAux]
    by_cases hkl : k < s.length
    · rw [dif_pos hkl, if_neg (hno k (le_refl k))]
      rw [ih (k + 1) (by omega) (fun j hj => hno j (by omega))]
      exact (List.drop_eq_getElem_cons hkl).symm
    · rw [dif_neg hkl]
      exact (List.drop_eq_nil_of_le (by omega)).symm

theorem subWB_id_of_noOccurs (p s : List Char) (h : occursWB p s = false) :
    subWB p s = s := by
  rw [subWB]
  have hno : ∀ j, 0 ≤ j → ¬(0 < p.length ∧ matchWBAt p s j = true) := by
    intro j _ hand
    have hf := occursWB_false_all p s h j
    rw [hf] at hand
    exact absurd hand.2 (by decide)
  rw [subWBAux_noMatchFrom p s (s.length + 1) 0 (by omega) hno]
  exact List.drop_zero s

theorem foldl_subWB_id (ps : List String) (s : List Char)
    (h : ∀ p ∈ ps, occursWB p.data s = false) :
    ps.foldl (fun m p => subWB p.data m) s = s := by
  induction ps with
  | nil => rfl
  | cons p ps ih =>
    rw [List.foldl_cons, subWB_id_of_noOccurs _ _ (h p (List.mem_cons_self p ps))]
    exact ih (fun q hq => h q (List.mem_cons_of_mem p hq))

theorem stripAllHelpers_id (s : List Char)
    (h : ∀ p ∈ HELPER_PHRASES, occursWB p.data s = false) :
    stripAllHelpers s = s := by
  rw [stripAllHelpers]
  exact foldl_subWB_id HELPER_PHRASES s h

theorem mem_subWBAux (p s : List Char) :
    ∀ fuel i c, c ∈ subWBAux p s fuel i → c ∈ s := by
  intro fuel
  induction fuel with
  | zero => intro i c hc; simp [subWBAux] at hc
  | succ fuel ih =>
    intro i c hc
    rw [subWBAux] at hc
    by_cases hk : i < s.length
    · rw [dif_pos hk] at hc
      by_cases hm : 0 < p.length ∧ matchWBAt p s i = true
      · rw [if_pos hm] at hc
        exact ih _ c hc
      · rw [if_neg hm] at hc
        rcases List.mem_cons.mp hc with h1 | h1
        · rw [h1]
          exact List.get_mem s i hk
        · exact ih _ c h1
    · rw [dif_neg hk] at hc
      exact absurd hc (List.not_mem_nil c)

theorem mem_foldl_subWB (ps : List String) :
    ∀ (s : List Char) (c : Char),
      c ∈ ps.foldl (fun m p => subWB p.data m) s → c ∈ s := by
  induction ps with
  | nil => intro s c hc; exact hc
  | cons p ps ih =>
    intro s c hc
    rw [List.foldl_cons] at hc
    exact mem_subWBAux p.data s _ 0 c (ih (subWB p.data s) c hc)

theorem mem_stripAllHelpers (s : List Char) (c : Char)
    (hc : c ∈ stripAllHelpers s) : c ∈ s := by
  rw [stripAllHelpers] at hc
  exact mem_foldl_subWB HELPER_PHRASES s c hc

theorem mk_data (l : List Char) : (⟨l⟩ : String).data = l := rfl

theorem clean_query_chars (m : String) :
    ∀ c ∈ (clean_query_from_helpers m).data, isSpaceChar c = false → c ∈ preCleanList m := by
  intro c hc hns
  rw [clean_query_from_helpers, mk_data] at hc
  have hc1 : c ∈ wsCollapseTrim (stripAllHelpers (preCleanList m)) := hc
  rw [wsCollapseTrim] at hc1
  have hc2 := mem_dropTrailing _ c hc1
  have hc3 := (List.dropWhile_sublist _).mem hc2
  rcases mem_squeezeWs _ c hc3 with h | ⟨hmem, _⟩
  · rw [h] at hns
    exact absurd hns (by decide)
  · exact mem_stripAllHelpers _ c hmem

theorem matchWBAt_bounds (p s : List Char) (i : Nat) (hp : 0 < p.length)
    (hm : matchWBAt p s i = true) : i + p.length ≤ s.length := by
  rw [matchWBAt] at hm
  have h1 := ((Bool.and_eq_true _ _).mp ((Bool.and_eq_true _ _).mp hm).1).1
  have h2 := eq_of_beq h1
  have h3 := congrArg List.length h2
  rw [List.length_take, List.length_drop] at h3
  omega

theorem subWBAux_single (p s : List Char) (i : Nat) (hp : 0 < p.length)
    (hm : matchWBAt p s i = true)
    (huniq : ∀ j, j ≠ i → matchWBAt p s j = false) :
    ∀ d k, k + d = i → ∀ fuel, s.length - k < fuel →
      subWBAux p s fuel k = (s.drop k).take (i - k) ++ s.drop (i + p.length) := by
  intro d
  induction d with
  | zero =>
    intro k hk fuel hfuel
    have hki : k = i := by omega
    subst hki
    have hil := matchWBAt_bounds p s k hp hm
    cases fuel with
    | zero => exact absurd hfuel (Nat.not_lt_zero _)
    | succ fuel =>
      rw [subWBAux, dif_pos (by omega), if_pos ⟨hp, hm⟩]
      rw [subWBAux_noMatchFrom p s fuel (k + p.length) (by omega) ?_]
      · rw [Nat.sub_self]
        simp
      · intro j hj hand
        have hf := huniq j (by omega)
        rw [hf] at hand
        exact absurd hand.2 (by decide)
  | succ d ih =>
    intro k hk fuel hfuel
    have hki : k < i := by omega
    have hil := matchWBAt_bounds p s i hp hm
    cases fuel with
    | zero => exact absurd hfuel (Nat.not_lt_zero _)
    | succ fuel =>
      rw [subWBAux, dif_pos (by omega), if_neg ?_]
      · rw [ih (k + 1) (by omega) fuel (by omega)]
        have hdk : s.drop k = s.get ⟨k, by omega⟩ :: s.drop (k + 1) :=
          List.drop_eq_getElem_cons (by omega)
        rw [hdk, show i - k = (i - (k + 1)) + 1 from by omega, List.take_succ_cons,
          List.cons_append]
      · intro hand
        have hf := huniq k (by omega)
        rw [hf] at hand
        exact absurd hand.2 (by decide)

theorem subWB_single (p s : List Char) (i : Nat) (hp : 0 < p.length)
    (hm : matchWBAt p s i = true)
    (huniq : ∀ j, j ≠ i → matchWBAt p s j = false) :
    subWB p s = s.take i ++ s.drop (i + p.length) := by
  rw [subWB]
  rw [subWBAux_single p s i hp hm huniq i 0 (by omega) (s.length + 1) (by omega)]
  rw [List.drop_zero, Nat.sub_zero]

/-- Claim C5: `clean_query_from_helpers` lower-cases and quote-folds, removes
helper phrases only at word boundaries (a phrase hidden inside a larger word
is never touched, and with no boundary occurrence anywhere the phrase pass is
the identity, leaving only whitespace collapsing and trimming), keeps every
non-space character of the folded message — in particular it strips no
punctuation — and deletes a uniquely-occurring boundary occurrence exactly,
leaving the surrounding text in place. -/
theorem C5_helper_stripping (m : String) (p s : List Char) (i : Nat) :
    ((∀ ph ∈ HELPER_PHRASES, occursWB ph.data (preCleanList m) = false) →
        clean_query_from_helpers m = ⟨wsCollapseTrim (preCleanList m)⟩)
    ∧ (∀ c ∈ (clean_query_from_helpers m).data, isSpaceChar c = false →
        c ∈ preCleanList m)
    ∧ (0 < p.length → matchWBAt p s i = true →
        (∀ j ∈ List.range (s.length + 1), j ≠ i → matchWBAt p s j = false) →
        subWB p s = s.take i ++ s.drop (i + p.length)) := by
  refine ⟨?_, clean_query_chars m, ?_⟩
  · intro h
    rw [clean_query_from_helpers, stripAllHelpers_id _ h]
  · intro hp hm hbound
    have huniq : ∀ j, j ≠ i → matchWBAt p s j = false := by
      intro j hj
      by_cases hle : j < s.length + 1
      · exact hbound j (List.mem_range.mpr hle) hj
      · exact matchWBAt_false_of_gt p s j (by omega)
    exact subWB_single p s i hp hm huniq

/-- Witness for C5: the phrase-free message "hello, world!" passes through
unchanged (punctuation intact), and deleting the unique boundary occurrence
of "who wrote" from "x who wrote y" keeps the surrounding text. -/
theorem C5_helper_stripping_witness :
    (∀ ph ∈ HELPER_PHRASES, occursWB ph.data (preCleanList "hello, world!") = false)
    ∧ clean_query_from_helpers "hello, world!" = "hello, world!"
    ∧ (0 < ("who wrote".data).length)
    ∧ matchWBAt "who wrote".data "x who wrote y".data 2 = true
    ∧ (∀ j ∈ List.range ("x who wrote y".data.length + 1), j ≠ 2 →
        matchWBAt "who wrote".data "x who wrote y".data j = false)
    ∧ subWB "who wrote".data "x who wrote y".data
        = "x who wrote y".data.take 2
          ++ "x who wrote y".data.drop (2 + ("who wrote".data).length) := by
  refine ⟨by decide, ?_, by decide, by decide, by decide, ?_⟩
  · have h := (C5_helper_stripping "hello, world!" [] [] 0).1 (by decide)
    rw [h]
    decide
  · exact (C5_helper_stripping "x" "who wrote".data "x who wrote y".data 2).2.2
      (by decide) (by decide) (by decide)

end ReadOrSkip
